import Mathlib

/-!
Shallow embedding of `src/bin/named_entity_recognition.py`, a notebook-style
script that loads a TEI XML letter, extracts the transcription text, cleans
it with one literal substring substitution, runs a pre-trained NER model on
it, and exports the resulting entity spans as JSON and as an HTML
visualisation.  Python strings are modelled as `List Char`.
-/

/-- The literal pattern `"& "` that line 169 of the script replaces. -/
def ampPat : List Char := ['&', ' ']

/-- The literal replacement `"and "` that line 169 of the script inserts. -/
def andRep : List Char := ['a', 'n', 'd', ' ']

/-- Python `str.replace(old, new)` for a nonempty `old`, on character lists:
scan left to right and replace each leftmost, non-overlapping occurrence of
`old` by `new`, leaving every other character unchanged.  (The script only
ever calls it with the nonempty pattern `"& "`; the empty-pattern case is
never exercised.) -/
def replaceList : List Char → List Char → List Char → List Char
  | _, _, [] => []
  | [], _, c :: rest => c :: rest
  | q :: qs, r, c :: rest =>
    if (q :: qs).isPrefixOf (c :: rest) then
      r ++ replaceList (q :: qs) r (rest.drop qs.length)
    else
      c :: replaceList (q :: qs) r rest
termination_by _ _ s => s.length
decreasing_by
  all_goals simp [List.length_drop]
  all_goals omega

/-- Embeds line 169 of the script:
`transcription = transcription.replace("& ", "and ")`. -/
def normalizeTranscription (s : List Char) : List Char :=
  replaceList ampPat andRep s

/-- Stated from the spec's words, for the refinement claim about the
normalizer: the reference global substitution that replaces every literal
occurrence of `"& "` by `"and "` in a single left-to-right pass and changes
no other part of the string. -/
def specGlobalSubst : List Char → List Char
  | [] => []
  | [c] => [c]
  | c₁ :: c₂ :: rest =>
    if c₁ = '&' ∧ c₂ = ' ' then
      'a' :: 'n' :: 'd' :: ' ' :: specGlobalSubst rest
    else
      c₁ :: specGlobalSubst (c₂ :: rest)

/-- Whether `p` occurs as a contiguous substring of `s`. -/
def containsPat (p : List Char) : List Char → Bool
  | [] => p.isEmpty
  | c :: rest => p.isPrefixOf (c :: rest) || containsPat p rest

theorem replaceList_amp_match (rest : List Char) :
    replaceList ampPat andRep ('&' :: ' ' :: rest) =
      'a' :: 'n' :: 'd' :: ' ' :: replaceList ampPat andRep rest := by
  simp [ampPat, andRep, replaceList, List.isPrefixOf]

theorem replaceList_amp_nomatch (c : Char) (rest : List Char)
    (h : ¬(c = '&' ∧ rest.head? = some ' ')) :
    replaceList ampPat andRep (c :: rest) = c :: replaceList ampPat andRep rest := by
  cases rest with
  | nil => simp [ampPat, andRep, replaceList, List.isPrefixOf]
  | cons x xs =>
    by_cases hc : c = '&'
    · have hx : ¬(' ' = x) := by
        intro hx'
        exact h ⟨hc, by simp [hx'.symm]⟩
      simp [ampPat, andRep, replaceList, List.isPrefixOf, hc, hx]
    · have hc' : ¬('&' = c) := fun h' => hc h'.symm
      simp [ampPat, andRep, replaceList, List.isPrefixOf, hc']

theorem replaceList_eq_specGlobalSubst : ∀ s : List Char,
    replaceList ampPat andRep s = specGlobalSubst s
  | [] => by simp [replaceList, specGlobalSubst]
  | [c] => by
    rw [replaceList_amp_nomatch c [] (by simp)]
    simp [replaceList, specGlobalSubst]
  | c₁ :: c₂ :: rest => by
    by_cases h : c₁ = '&' ∧ c₂ = ' '
    · obtain ⟨h1, h2⟩ := h
      subst h1
      subst h2
      rw [replaceList_amp_match rest, replaceList_eq_specGlobalSubst rest]
      simp [specGlobalSubst]
    · have hd : ¬(c₁ = '&' ∧ (c₂ :: rest).head? = some ' ') := by
        rintro ⟨h1, h2⟩
        simp at h2
        exact h ⟨h1, h2⟩
      rw [replaceList_amp_nomatch c₁ (c₂ :: rest) hd,
        replaceList_eq_specGlobalSubst (c₂ :: rest)]
      simp [specGlobalSubst, h]

theorem specGlobalSubst_head : ∀ (c : Char) (r : List Char),
    (specGlobalSubst (c :: r)).head? = some c ∨
      (specGlobalSubst (c :: r)).head? = some 'a' := by
  intro c r
  cases r with
  | nil => left; simp [specGlobalSubst]
  | cons c₂ rest =>
    by_cases h : c = '&' ∧ c₂ = ' '
    · right; simp [specGlobalSubst, h]
    · left; simp [specGlobalSubst, h]

theorem containsPat_specGlobalSubst : ∀ s : List Char,
    containsPat ampPat (specGlobalSubst s) = false
  | [] => by simp [specGlobalSubst, containsPat, ampPat, List.isEmpty]
  | [c] => by simp [specGlobalSubst, containsPat, ampPat, List.isPrefixOf]
  | c₁ :: c₂ :: rest => by
    by_cases h : c₁ = '&' ∧ c₂ = ' '
    · have ih := containsPat_specGlobalSubst rest
      simp [ampPat] at ih
      simp [specGlobalSubst, h, containsPat, ampPat, List.isPrefixOf, ih]
    · have hhead := specGlobalSubst_head c₂ rest
      have hih := containsPat_specGlobalSubst (c₂ :: rest)
      simp [specGlobalSubst, h, containsPat]
      refine ⟨?_, hih⟩
      cases hrec : specGlobalSubst (c₂ :: rest) with
      | nil => simp [ampPat, List.isPrefixOf]
      | cons d tl =>
        rw [hrec] at hhead
        simp at hhead
        by_cases hc : c₁ = '&'
        · have hd : ¬(' ' = d) := by
            rcases hhead with h2 | h2
            · subst h2
              intro h2'
              exact h ⟨hc, h2'.symm⟩
            · subst h2
              decide
          simp [ampPat, List.isPrefixOf, hc, hd]
        · have hc' : ¬('&' = c₁) := fun h' => hc h'.symm
          simp [ampPat, List.isPrefixOf, hc']

theorem specGlobalSubst_of_not_contains : ∀ s : List Char,
    containsPat ampPat s = false → specGlobalSubst s = s
  | [], _ => rfl
  | [c], _ => by simp [specGlobalSubst]
  | c₁ :: c₂ :: rest, h => by
    have h' : ampPat.isPrefixOf (c₁ :: c₂ :: rest) = false ∧
        containsPat ampPat (c₂ :: rest) = false := by
      simpa [containsPat] using h
    by_cases hc : c₁ = '&' ∧ c₂ = ' '
    · exfalso
      have := h'.1
      simp [ampPat, List.isPrefixOf, hc.1, hc.2] at this
    · simp [specGlobalSubst, hc,
        specGlobalSubst_of_not_contains (c₂ :: rest) h'.2]

/-- Claim C5: for every input string, the normalizer at line 169 computes
exactly the reference global substitution: every literal occurrence of
`"& "` is replaced by `"and "` in a single global pass, and no other part
of the string is changed. -/
theorem normalize_eq_global_subst (s : List Char) :
    normalizeTranscription s = specGlobalSubst s :=
  replaceList_eq_specGlobalSubst s

/-- Claim C1: the normalization at line 169 is idempotent, and after one
pass the result contains no occurrence of the target pattern `"& "`. -/
theorem normalize_idempotent (s : List Char) :
    normalizeTranscription (normalizeTranscription s) = normalizeTranscription s ∧
      containsPat ampPat (normalizeTranscription s) = false := by
  constructor
  · rw [normalizeTranscription, normalizeTranscription,
      replaceList_eq_specGlobalSubst s,
      replaceList_eq_specGlobalSubst (specGlobalSubst s),
      specGlobalSubst_of_not_contains _ (containsPat_specGlobalSubst s)]
  · rw [normalizeTranscription, replaceList_eq_specGlobalSubst s]
    exact containsPat_specGlobalSubst s

/-- Claim C6: on the concrete input `"I have & you have"` the normalization
step returns exactly `"I have and you have"`. -/
theorem normalize_concrete_example :
    normalizeTranscription ("I have & you have".data) = "I have and you have".data := by
  rw [normalizeTranscription, replaceList_eq_specGlobalSubst]
  decide

/-- Claim C10: a character that does not start an occurrence of the exact
two-character pattern `"& "` — in particular an ampersand at the end of the
string or one followed by a non-space character — is left unchanged by the
normalization step. -/
theorem normalize_amp_no_space_unchanged (c : Char) (rest : List Char)
    (h : ¬(c = '&' ∧ rest.head? = some ' ')) :
    normalizeTranscription (c :: rest) = c :: normalizeTranscription rest := by
  rw [normalizeTranscription, normalizeTranscription]
  exact replaceList_amp_nomatch c rest h

/-- Witness for claim C10 at the concrete input `"&c."`: the leading
ampersand is followed by a letter and is left unchanged. -/
theorem normalize_amp_no_space_unchanged_witness :
    (¬('&' = '&' ∧ ("c.".data).head? = some ' ')) ∧
      normalizeTranscription ('&' :: "c.".data) = '&' :: normalizeTranscription ("c.".data) :=
  ⟨by decide, normalize_amp_no_space_unchanged '&' ("c.".data) (by decide)⟩

/-- Modelled from the spec: the parsed XML tree produced by the document
loader (the XML parsing library itself is an opaque external collaborator).
A node is either a text node or an element carrying attribute/value pairs
and an ordered list of children. -/
inductive XNode where
  | text (s : List Char) : XNode
  | elem (attrs : List (String × String)) (children : List XNode) : XNode

mutual

/-- Modelled from the spec: the `.text` accessor at line 147 — the full
concatenated text content of a subtree, including the text of nested
elements, concatenated in document order. -/
def textContent : XNode → List Char
  | .text s => s
  | .elem _ cs => textContentList cs

/-- Text content of a list of sibling subtrees, in document order. -/
def textContentList : List XNode → List Char
  | [] => []
  | c :: cs => textContent c ++ textContentList cs

end

mutual

/-- All subtrees (in document order, a preorder walk) whose attribute list
carries the attribute/value pair `(a, v)`. -/
def matchingSubtrees (a v : String) : XNode → List XNode
  | .text _ => []
  | .elem attrs cs =>
    (if (a, v) ∈ attrs then [XNode.elem attrs cs] else []) ++
      matchingSubtreesList a v cs

/-- All matching subtrees of a list of sibling subtrees, in document order. -/
def matchingSubtreesList (a v : String) : List XNode → List XNode
  | [] => []
  | c :: cs => matchingSubtrees a v c ++ matchingSubtreesList a v cs

end

mutual

/-- Modelled from the spec: the `find` search at line 147 — return the first
subtree, in document order, carrying the attribute/value pair `(a, v)`, or
an absent result when there is none. -/
def findAttr (a v : String) : XNode → Option XNode
  | .text _ => none
  | .elem attrs cs =>
    if (a, v) ∈ attrs then some (XNode.elem attrs cs)
    else findAttrList a v cs

/-- First match over a list of sibling subtrees, in document order. -/
def findAttrList (a v : String) : List XNode → Option XNode
  | [] => none
  | c :: cs => (findAttr a v c).orElse (fun _ => findAttrList a v cs)

end

/-- Embeds line 147 of the script:
`transcription = letter.find(type="transcription").text`.
A `none` result models the `AttributeError` raised when `find` returns no
element and `.text` is accessed on the absent value. -/
def extractTranscription (letter : XNode) : Option (List Char) :=
  (findAttr "type" "transcription" letter).map textContent

mutual

theorem findAttr_eq_head (a v : String) : ∀ t : XNode,
    findAttr a v t = (matchingSubtrees a v t).head?
  | .text s => by simp [findAttr, matchingSubtrees]
  | .elem attrs cs => by
    by_cases h : (a, v) ∈ attrs
    · simp [findAttr, matchingSubtrees, h]
    · simp [findAttr, matchingSubtrees, h, findAttrList_eq_head a v cs]

theorem findAttrList_eq_head (a v : String) : ∀ ts : List XNode,
    findAttrList a v ts = (matchingSubtreesList a v ts).head?
  | [] => by simp [findAttrList, matchingSubtreesList]
  | c :: cs => by
    rw [findAttrList, matchingSubtreesList, findAttr_eq_head a v c,
      findAttrList_eq_head a v cs, List.head?_append]
    cases (matchingSubtrees a v c).head? <;> simp [Option.orElse]

end

/-- Claim C3: for every parsed tree containing exactly one subtree whose
attribute/value pair matches `type="transcription"`, the extraction at line
147 returns the full concatenated text content of that subtree. -/
theorem extract_unique_match (t u : XNode)
    (h : matchingSubtrees "type" "transcription" t = [u]) :
    extractTranscription t = some (textContent u) := by
  rw [extractTranscription, findAttr_eq_head, h]
  rfl

/-- Witness for claim C3 at a concrete one-letter tree with a single
transcription element containing nested text. -/
theorem extract_unique_match_witness :
    matchingSubtrees "type" "transcription"
        (XNode.elem [("type", "letter")]
          [XNode.elem [("type", "transcription")]
            [XNode.text ("My dear ".data),
             XNode.elem [] [XNode.text ("Sir".data)]]]) =
      [XNode.elem [("type", "transcription")]
        [XNode.text ("My dear ".data),
         XNode.elem [] [XNode.text ("Sir".data)]]] ∧
      extractTranscription
        (XNode.elem [("type", "letter")]
          [XNode.elem [("type", "transcription")]
            [XNode.text ("My dear ".data),
             XNode.elem [] [XNode.text ("Sir".data)]]]) =
        some ("My dear Sir".data) := by
  have hm : matchingSubtrees "type" "transcription"
      (XNode.elem [("type", "letter")]
        [XNode.elem [("type", "transcription")]
          [XNode.text ("My dear ".data),
           XNode.elem [] [XNode.text ("Sir".data)]]]) =
      [XNode.elem [("type", "transcription")]
        [XNode.text ("My dear ".data),
         XNode.elem [] [XNode.text ("Sir".data)]]] := by
    simp [matchingSubtrees, matchingSubtreesList]
  refine ⟨hm, ?_⟩
  rw [extract_unique_match _ _ hm]
  simp [textContent, textContentList]

/-- Claim C4: for every parsed tree with zero matching subtrees, the
extraction at line 147 has no recovery or defaulting path: the absent
result propagates (modelled as `none`, the uncaught `AttributeError`). -/
theorem extract_no_match (t : XNode)
    (h : matchingSubtrees "type" "transcription" t = []) :
    extractTranscription t = none := by
  rw [extractTranscription, findAttr_eq_head, h]
  rfl

/-- Witness for claim C4 at a concrete tree that carries no
`type="transcription"` attribute anywhere. -/
theorem extract_no_match_witness :
    matchingSubtrees "type" "transcription"
        (XNode.elem [("type", "letter")] [XNode.text ("hello".data)]) = [] ∧
      extractTranscription
        (XNode.elem [("type", "letter")] [XNode.text ("hello".data)]) = none := by
  have hm : matchingSubtrees "type" "transcription"
      (XNode.elem [("type", "letter")] [XNode.text ("hello".data)]) = [] := by
    simp [matchingSubtrees, matchingSubtreesList]
  exact ⟨hm, extract_no_match _ hm⟩

/-- One entity record as exported by the script (a span's start offset, end
offset and label).  The JSON keys emitted at line 317 are `"start"`,
`"end"` and `"label"`; the `"end"` key is modelled by the field `stop`
because `end` is reserved in Lean. -/
structure EntRecord where
  start : Nat
  stop : Nat
  label : List Char
deriving DecidableEq

/-- Modelled from the spec: one value of the mapping returned by the
external `document.to_json()` call at line 298 — either the entity-span
sequence stored under the `"ents"` key, or one of the other entries
(`"text"`, `"tokens"`, ...) treated as an opaque tag. -/
inductive DocValue where
  | ents (spans : List EntRecord) : DocValue
  | other (tag : String) : DocValue
deriving DecidableEq

/-- Embeds line 306 of the script:
`ents_dict = {key: value for (key, value) in doc_dict.items() if key == "ents"}`
(a key-filtering dictionary comprehension, order-preserving). -/
def ents_dict (doc_dict : List (String × DocValue)) : List (String × DocValue) :=
  doc_dict.filter (fun kv => kv.1 == "ents")

/-- Whether a character is a decimal digit. -/
def isDigitChar (c : Char) : Bool := 48 ≤ c.toNat && c.toNat ≤ 57

/-- The decimal digit character for `d` (`0 ≤ d ≤ 9`). -/
def digitChar10 (d : Nat) : Char := Char.ofNat (48 + d)

/-- Decimal representation of a natural number, as emitted by the Python
stdlib JSON serializer for the span offsets. -/
def natChars (n : Nat) : List Char :=
  if n = 0 then ['0'] else ((Nat.digits 10 n).reverse).map digitChar10

/-- Value of a big-endian list of decimal digit characters. -/
def digitsVal (ds : List Char) : Nat :=
  ds.foldl (fun a c => 10 * a + (c.toNat - 48)) 0

theorem digitChar10_toNat (d : Nat) (hd : d < 10) :
    (digitChar10 d).toNat = 48 + d := by
  interval_cases d <;> decide

theorem isDigitChar_digitChar10 (d : Nat) (hd : d < 10) :
    isDigitChar (digitChar10 d) = true := by
  interval_cases d <;> decide

theorem natChars_all_digits (n : Nat) :
    ∀ c ∈ natChars n, isDigitChar c = true := by
  by_cases h : n = 0
  · subst h
    intro c hc
    simp [natChars] at hc
    subst hc
    decide
  · intro c hc
    simp [natChars, h] at hc
    obtain ⟨d, hd, rfl⟩ := hc
    exact isDigitChar_digitChar10 d (Nat.digits_lt_base (by norm_num) hd)

theorem natChars_ne_nil (n : Nat) : natChars n ≠ [] := by
  by_cases h : n = 0
  · subst h
    simp [natChars]
  · simp [natChars, h, Nat.digits_ne_nil_iff_ne_zero]

theorem foldr_digitsVal (L : List Nat) (hL : ∀ d ∈ L, d < 10) :
    L.foldr (fun x y => 10 * y + ((digitChar10 x).toNat - 48)) 0 =
      Nat.ofDigits 10 L := by
  induction L with
  | nil => simp [Nat.ofDigits]
  | cons d L ih =>
    have hd : d < 10 := hL d (by simp)
    have hrec := ih (fun x hx => hL x (by simp [hx]))
    simp [Nat.ofDigits_cons, hrec, digitChar10_toNat d hd]
    omega

theorem digitsVal_natChars (n : Nat) : digitsVal (natChars n) = n := by
  by_cases h : n = 0
  · subst h
    decide
  · rw [natChars, if_neg h, digitsVal, List.foldl_map, List.foldl_reverse,
      foldr_digitsVal _ (fun d hd => Nat.digits_lt_base (by norm_num) hd),
      Nat.ofDigits_digits]

/-- Split a string into its leading run of decimal digits and the rest. -/
def splitDigits : List Char → List Char × List Char
  | [] => ([], [])
  | c :: cs =>
    if isDigitChar c then
      (c :: (splitDigits cs).1, (splitDigits cs).2)
    else ([], c :: cs)

/-- Split a string into the part before the first double quote and the rest
(starting at that quote). -/
def splitAtQuote : List Char → List Char × List Char
  | [] => ([], [])
  | c :: cs =>
    if c = '"' then ([], c :: cs)
    else (c :: (splitAtQuote cs).1, (splitAtQuote cs).2)

/-- Consume an expected literal prefix, or fail. -/
def dropLit (lit s : List Char) : Option (List Char) :=
  if lit.isPrefixOf s then some (s.drop lit.length) else none

/-- Parse a leading decimal number. -/
def parseNat (s : List Char) : Option (Nat × List Char) :=
  if (splitDigits s).1.isEmpty then none
  else some (digitsVal (splitDigits s).1, (splitDigits s).2)

theorem splitDigits_append : ∀ (ds rest : List Char),
    (∀ c ∈ ds, isDigitChar c = true) →
    (∀ c, rest.head? = some c → isDigitChar c = false) →
    splitDigits (ds ++ rest) = (ds, rest)
  | [], rest, _, hr => by
    cases rest with
    | nil => rfl
    | cons c cs => simp [splitDigits, hr c rfl]
  | d :: ds, rest, hds, hr => by
    have hd := hds d (by simp)
    rw [List.cons_append, splitDigits, if_pos hd,
      splitDigits_append ds rest (fun c hc => hds c (by simp [hc])) hr]

theorem splitAtQuote_append : ∀ (lab rest : List Char),
    '"' ∉ lab → rest.head? = some '"' →
    splitAtQuote (lab ++ rest) = (lab, rest)
  | [], rest, _, hr => by
    cases rest with
    | nil => simp at hr
    | cons c cs =>
      simp at hr
      subst hr
      simp [splitAtQuote]
  | c :: lab, rest, hlab, hr => by
    have hc : ¬(c = '"') := by
      intro h
      exact hlab (by simp [h])
    rw [List.cons_append, splitAtQuote, if_neg hc,
      splitAtQuote_append lab rest (fun h => hlab (by simp [h])) hr]

theorem dropLit_append (lit r : List Char) : dropLit lit (lit ++ r) = some r := by
  have h : lit.isPrefixOf (lit ++ r) = true := by
    rw [List.isPrefixOf_iff_prefix]
    exact List.prefix_append lit r
  simp [dropLit, h, List.drop_left]

theorem dropLit_cons_ne (a : Char) (t : List Char) (b : Char) (s : List Char)
    (h : ¬(a = b)) : dropLit (a :: t) (b :: s) = none := by
  simp [dropLit, List.isPrefixOf, h]

theorem parseNat_append (n : Nat) (rest : List Char)
    (hr : ∀ c, rest.head? = some c → isDigitChar c = false) :
    parseNat (natChars n ++ rest) = some (n, rest) := by
  rw [parseNat, splitDigits_append (natChars n) rest (natChars_all_digits n) hr]
  simp [natChars_ne_nil n, digitsVal_natChars n]

/-- The characters `{"start": ` opening one entity object in the JSON dump. -/
def entOpenLit : List Char := ['\x7b', '"', 's', 't', 'a', 'r', 't', '"', ':', ' ']

/-- The characters `, "end": ` between the start and end offsets. -/
def entEndLit : List Char := [',', ' ', '"', 'e', 'n', 'd', '"', ':', ' ']

/-- The characters `, "label": "` before the label string. -/
def entLabelLit : List Char := [',', ' ', '"', 'l', 'a', 'b', 'e', 'l', '"', ':', ' ', '"']

/-- The characters `"}` closing one entity object. -/
def entCloseLit : List Char := ['"', '\x7d']

/-- The characters `{"ents": [` opening the serialized mapping. -/
def entsOpenLit : List Char := ['\x7b', '"', 'e', 'n', 't', 's', '"', ':', ' ', '[']

/-- The characters `]}` closing the serialized mapping. -/
def entsCloseLit : List Char := [']', '\x7d']

/-- The `, ` separator between entity objects. -/
def sepLit : List Char := [',', ' ']

/-- Modelled from the Python stdlib `json.dumps` output format: one entity
record serialized as `\x7b"start": s, "end": e, "label": "L"\x7d`. -/
def entJson (e : EntRecord) : List Char :=
  entOpenLit ++ natChars e.start ++ entEndLit ++ natChars e.stop ++
    entLabelLit ++ e.label ++ entCloseLit

/-- The entity records serialized in order, separated by `, `. -/
def entsJsonList : List EntRecord → List Char
  | [] => []
  | [e] => entJson e
  | e :: e' :: rest => entJson e ++ sepLit ++ entsJsonList (e' :: rest)

/-- Embeds line 317 of the script, `json.dumps(ents_dict)`, on the filtered
single-key mapping: the serialized form `\x7b"ents": [...]\x7d` with the
entity records in order (the Python stdlib serializer is modelled by its
documented output format). -/
def dumpsEnts (spans : List EntRecord) : List Char :=
  entsOpenLit ++ entsJsonList spans ++ entsCloseLit

/-- Parse one serialized entity object. -/
def parseEnt (s : List Char) : Option (EntRecord × List Char) :=
  match dropLit entOpenLit s with
  | none => none
  | some s1 =>
    match parseNat s1 with
    | none => none
    | some (st, s2) =>
      match dropLit entEndLit s2 with
      | none => none
      | some s3 =>
        match parseNat s3 with
        | none => none
        | some (en, s4) =>
          match dropLit entLabelLit s4 with
          | none => none
          | some s5 =>
            match dropLit entCloseLit (splitAtQuote s5).2 with
            | none => none
            | some s6 => some (⟨st, en, (splitAtQuote s5).1⟩, s6)

/-- Parse a nonempty `, `-separated sequence of serialized entity objects
(with fuel, bounded by the input length). -/
def parseEntsAux : Nat → List Char → Option (List EntRecord × List Char)
  | 0, _ => none
  | fuel + 1, s =>
    match parseEnt s with
    | none => none
    | some (e, s1) =>
      match dropLit sepLit s1 with
      | none => some ([e], s1)
      | some s2 =>
        match parseEntsAux fuel s2 with
        | none => none
        | some (es, s3) => some (e :: es, s3)

/-- Parse the serialized mapping `\x7b"ents": [...]\x7d` back into the list
of entity records (the decoder witnessing that the serialization loses
nothing). -/
def parseEntsJson (s : List Char) : Option (List EntRecord) :=
  match dropLit entsOpenLit s with
  | none => none
  | some s1 =>
    match dropLit entsCloseLit s1 with
    | some s2 => if s2.isEmpty then some [] else none
    | none =>
      match parseEntsAux s1.length s1 with
      | none => none
      | some (es, s2) =>
        match dropLit entsCloseLit s2 with
        | none => none
        | some s3 => if s3.isEmpty then some es else none

theorem parseEnt_append (e : EntRecord) (rest : List Char)
    (hlab : '"' ∉ e.label) :
    parseEnt (entJson e ++ rest) = some (e, rest) := by
  obtain ⟨st, en, lab⟩ := e
  simp only [EntRecord.label] at hlab
  have hassoc : entJson ⟨st, en, lab⟩ ++ rest =
      entOpenLit ++ (natChars st ++ (entEndLit ++ (natChars en ++
        (entLabelLit ++ (lab ++ (entCloseLit ++ rest)))))) := by
    simp [entJson, List.append_assoc]
  have e1 : dropLit entOpenLit (entOpenLit ++ (natChars st ++ (entEndLit ++
      (natChars en ++ (entLabelLit ++ (lab ++ (entCloseLit ++ rest))))))) =
      some (natChars st ++ (entEndLit ++ (natChars en ++
        (entLabelLit ++ (lab ++ (entCloseLit ++ rest)))))) :=
    dropLit_append _ _
  have e2 : parseNat (natChars st ++ (entEndLit ++ (natChars en ++
      (entLabelLit ++ (lab ++ (entCloseLit ++ rest)))))) =
      some (st, entEndLit ++ (natChars en ++
        (entLabelLit ++ (lab ++ (entCloseLit ++ rest))))) := by
    refine parseNat_append st _ ?_
    intro c hc
    have h' : some ',' = some c := by
      rw [← hc]
      rfl
    injection h' with h'
    subst h'
    decide
  have e3 : dropLit entEndLit (entEndLit ++ (natChars en ++
      (entLabelLit ++ (lab ++ (entCloseLit ++ rest))))) =
      some (natChars en ++ (entLabelLit ++ (lab ++ (entCloseLit ++ rest)))) :=
    dropLit_append _ _
  have e4 : parseNat (natChars en ++ (entLabelLit ++ (lab ++
      (entCloseLit ++ rest)))) =
      some (en, entLabelLit ++ (lab ++ (entCloseLit ++ rest))) := by
    refine parseNat_append en _ ?_
    intro c hc
    have h' : some ',' = some c := by
      rw [← hc]
      rfl
    injection h' with h'
    subst h'
    decide
  have e5 : dropLit entLabelLit (entLabelLit ++ (lab ++ (entCloseLit ++ rest))) =
      some (lab ++ (entCloseLit ++ rest)) :=
    dropLit_append _ _
  have e6 : splitAtQuote (lab ++ (entCloseLit ++ rest)) =
      (lab, entCloseLit ++ rest) :=
    splitAtQuote_append lab _ hlab rfl
  have e7 : dropLit entCloseLit (entCloseLit ++ rest) = some rest :=
    dropLit_append _ _
  rw [hassoc, parseEnt, e1]
  simp only [e2, e3, e4, e5, e6, e7]

theorem entsJsonList_length : ∀ l : List EntRecord,
    l.length ≤ (entsJsonList l).length
  | [] => by simp [entsJsonList]
  | [e] => by
    simp [entsJsonList, entJson, entOpenLit]
  | e :: e' :: tl => by
    have ih := entsJsonList_length (e' :: tl)
    simp [entsJsonList, entJson, entOpenLit, sepLit] at ih ⊢
    omega

theorem parseEntsAux_round : ∀ (l : List EntRecord) (fuel : Nat) (rest : List Char),
    (∀ e ∈ l, '"' ∉ e.label) → l.length ≤ fuel → rest.head? = some ']' →
    l ≠ [] → parseEntsAux fuel (entsJsonList l ++ rest) = some (l, rest)
  | [], _, _, _, _, _, hne => absurd rfl hne
  | [e], fuel, rest, hlab, hfuel, hr, _ => by
    cases fuel with
    | zero => simp at hfuel
    | succ f =>
      cases rest with
      | nil => simp at hr
      | cons b t =>
        simp at hr
        subst hr
        simp only [entsJsonList, parseEntsAux,
          parseEnt_append e _ (hlab e (by simp)), sepLit,
          dropLit_cons_ne ',' [' '] ']' t (by decide)]
  | e :: e' :: tl, fuel, rest, hlab, hfuel, hr, _ => by
    cases fuel with
    | zero => simp at hfuel
    | succ f =>
      have hassoc : entsJsonList (e :: e' :: tl) ++ rest =
          entJson e ++ (sepLit ++ (entsJsonList (e' :: tl) ++ rest)) := by
        simp [entsJsonList, List.append_assoc]
      have hlen : (e' :: tl).length ≤ f := by
        simp at hfuel ⊢
        omega
      simp only [hassoc, parseEntsAux, parseEnt_append e _ (hlab e (by simp)),
        dropLit_append,
        parseEntsAux_round (e' :: tl) f rest
          (fun x hx => hlab x (List.mem_cons_of_mem e hx)) hlen hr (by simp)]

theorem parseEntsJson_dumps (spans : List EntRecord)
    (hlab : ∀ e ∈ spans, '"' ∉ e.label) :
    parseEntsJson (dumpsEnts spans) = some spans := by
  cases spans with
  | nil =>
    have h0 : dumpsEnts [] = entsOpenLit ++ (entsJsonList [] ++ entsCloseLit) := by
      simp [dumpsEnts]
    have h1 : dropLit entsCloseLit entsCloseLit = some [] := by
      have := dropLit_append entsCloseLit []
      rwa [List.append_nil] at this
    rw [h0, parseEntsJson, dropLit_append]
    simp [entsJsonList, h1]
  | cons e tl =>
    have hassoc : dumpsEnts (e :: tl) =
        entsOpenLit ++ (entsJsonList (e :: tl) ++ entsCloseLit) := by
      simp [dumpsEnts, List.append_assoc]
    have hhead : ∃ t, entsJsonList (e :: tl) = '\x7b' :: t := by
      cases tl with
      | nil => exact ⟨_, rfl⟩
      | cons e' tl' => exact ⟨_, rfl⟩
    obtain ⟨t, ht⟩ := hhead
    have hnone : dropLit entsCloseLit (entsJsonList (e :: tl) ++ entsCloseLit) = none := by
      rw [ht, List.cons_append, show entsCloseLit = ']' :: ['\x7d'] from rfl,
        dropLit_cons_ne ']' ['\x7d'] '\x7b' _ (by decide)]
    have hlen : (e :: tl).length ≤ (entsJsonList (e :: tl) ++ entsCloseLit).length := by
      have h := entsJsonList_length (e :: tl)
      simp [List.length_append] at h ⊢
      omega
    have hr : entsCloseLit.head? = some ']' := rfl
    have haux := parseEntsAux_round (e :: tl)
      ((entsJsonList (e :: tl) ++ entsCloseLit).length) entsCloseLit
      hlab hlen hr (by simp)
    have h1 : dropLit entsCloseLit entsCloseLit = some [] := by
      have := dropLit_append entsCloseLit []
      rwa [List.append_nil] at this
    simp only [hassoc, parseEntsJson, dropLit_append, hnone, haux, h1,
      List.isEmpty_nil, if_true]

theorem ents_dict_eq (pre post : List (String × DocValue)) (spans : List EntRecord)
    (hpre : ∀ kv ∈ pre, kv.1 ≠ "ents") (hpost : ∀ kv ∈ post, kv.1 ≠ "ents") :
    ents_dict (pre ++ ("ents", DocValue.ents spans) :: post) =
      [("ents", DocValue.ents spans)] := by
  rw [ents_dict, List.filter_append]
  have h1 : pre.filter (fun kv => kv.1 == "ents") = [] := by
    refine List.filter_eq_nil_iff.mpr ?_
    intro a ha
    simp [hpre a ha]
  have h2 : post.filter (fun kv => kv.1 == "ents") = [] := by
    refine List.filter_eq_nil_iff.mpr ?_
    intro a ha
    simp [hpost a ha]
  simp [h1, h2]

/-- Claim C2: under the exported mapping's construction at lines 297-317 —
`doc_dict` holds exactly one `"ents"` entry carrying the annotator's span
sequence — the filtered mapping `ents_dict` contains exactly the one key
`"ents"` with exactly that sequence, in order, and the JSON serialization
of that mapping parses back to exactly the same sequence (an
order-preserving, lossless round trip). -/
theorem ents_export_roundtrip (doc_dict pre post : List (String × DocValue))
    (spans : List EntRecord)
    (hsplit : doc_dict = pre ++ ("ents", DocValue.ents spans) :: post)
    (hpre : ∀ kv ∈ pre, kv.1 ≠ "ents") (hpost : ∀ kv ∈ post, kv.1 ≠ "ents")
    (hlab : ∀ e ∈ spans, '"' ∉ e.label) :
    ents_dict doc_dict = [("ents", DocValue.ents spans)] ∧
      parseEntsJson (dumpsEnts spans) = some spans := by
  subst hsplit
  exact ⟨ents_dict_eq pre post spans hpre hpost, parseEntsJson_dumps spans hlab⟩

/-- A concrete stubbed annotator output: two spans with their labels. -/
def sampleSpans : List EntRecord :=
  [⟨0, 14, ['P', 'E', 'R', 'S', 'O', 'N']⟩, ⟨21, 29, ['G', 'P', 'E']⟩]

/-- A concrete `document.to_json()` mapping holding the stubbed spans. -/
def sampleDocDict : List (String × DocValue) :=
  [("text", DocValue.other "t"), ("ents", DocValue.ents sampleSpans),
    ("tokens", DocValue.other "k")]

/-- Witness for claim C2 at the concrete stubbed document mapping. -/
theorem ents_export_roundtrip_witness :
    (∀ e ∈ sampleSpans, '"' ∉ e.label) ∧
      ents_dict sampleDocDict = [("ents", DocValue.ents sampleSpans)] ∧
      parseEntsJson (dumpsEnts sampleSpans) = some sampleSpans := by
  have h := ents_export_roundtrip sampleDocDict
    [("text", DocValue.other "t")] [("tokens", DocValue.other "k")] sampleSpans
    rfl (by decide) (by decide) (by decide)
  exact ⟨by decide, h.1, h.2⟩

/-- The span sequence carried from the annotator through the filtered
mapping to the exporter (lines 285-286 iterate `document.ents`; lines
297-306 carry the same sequence into `ents_dict`). -/
def exporterSpans (doc_dict : List (String × DocValue)) : Option (List EntRecord) :=
  match ents_dict doc_dict with
  | [(_, DocValue.ents l)] => some l
  | _ => none

/-- Claim C7: the span sequence carried from the annotator to the exporter
is ordered by start offset — the pipeline forwards the annotator's sequence
unchanged, so the order the model produced (modelled from the spec as a
premise) is the order exported; no uniqueness or non-overlap property is
required of the spans anywhere along the way. -/
theorem exporter_spans_ordered (doc_dict pre post : List (String × DocValue))
    (spans : List EntRecord)
    (hsplit : doc_dict = pre ++ ("ents", DocValue.ents spans) :: post)
    (hpre : ∀ kv ∈ pre, kv.1 ≠ "ents") (hpost : ∀ kv ∈ post, kv.1 ≠ "ents")
    (hsorted : spans.Pairwise (fun a b => a.start ≤ b.start)) :
    ∃ carried, exporterSpans doc_dict = some carried ∧
      carried.Pairwise (fun a b => a.start ≤ b.start) := by
  subst hsplit
  refine ⟨spans, ?_, hsorted⟩
  rw [exporterSpans, ents_dict_eq pre post spans hpre hpost]

/-- Concrete stubbed annotator output containing duplicate and overlapping
spans, ordered by start offset. -/
def overlapSpans : List EntRecord :=
  [⟨0, 5, ['A']⟩, ⟨0, 5, ['A']⟩, ⟨2, 9, ['B']⟩]

/-- Witness for claim C7: the concrete span sequence contains duplicates
and overlaps, yet only its order by start offset is needed. -/
theorem exporter_spans_ordered_witness :
    overlapSpans.Pairwise (fun a b => a.start ≤ b.start) ∧
      ∃ carried,
        exporterSpans [("ents", DocValue.ents overlapSpans)] = some carried ∧
          carried.Pairwise (fun a b => a.start ≤ b.start) :=
  ⟨by decide,
    exporter_spans_ordered [("ents", DocValue.ents overlapSpans)] [] []
      overlapSpans rfl (by decide) (by decide) (by decide)⟩

/-- A file system, as a map from paths to file contents. -/
def FileSys : Type := String → Option String

/-- Embeds line 352 of the script:
`output_file = Path("../results/ent_viz.html")`. -/
def output_file : String := "../results/ent_viz.html"

/-- Embeds line 363, `output_file.open("w", encoding="utf-8").write(html)`:
Python's mode `"w"` truncates and overwrites the file at the given path and
touches nothing else (write semantics modelled from the stdlib contract). -/
def writeFileW (fs : FileSys) (p : String) (c : String) : FileSys :=
  fun q => if q = p then some c else fs q

/-- The write trace of the HTML-export cell (lines 352-363): the events
`(path, contents)` it performs, in order. -/
def htmlExportWrites (html : String) : List (String × String) :=
  [(output_file, html)]

/-- The file system after the HTML-export cell runs. -/
def runHtmlExport (fs : FileSys) (html : String) : FileSys :=
  writeFileW fs output_file html

/-- Claim C8: the HTML exporter writes exactly once, to the one fixed
relative path, overwriting whatever was there (the new contents replace the
old with no append and no backup), and modifies no other file. -/
theorem html_export_frame (fs : FileSys) (html : String) :
    (htmlExportWrites html).map Prod.fst = [output_file] ∧
      runHtmlExport fs html output_file = some html ∧
      (∀ q, q ≠ output_file → runHtmlExport fs html q = fs q) := by
  refine ⟨rfl, ?_, ?_⟩
  · simp [runHtmlExport, writeFileW]
  · intro q hq
    simp [runHtmlExport, writeFileW, hq]

/-- Witness for claim C8 at a concrete file system that already holds an
old file at the output path and one unrelated file. -/
theorem html_export_frame_witness :
    ("other.txt" ≠ output_file) ∧
      runHtmlExport
          (fun q => if q = "other.txt" then some "keep" else
            if q = output_file then some "old" else none)
          "<html>new</html>" output_file = some "<html>new</html>" ∧
      runHtmlExport
          (fun q => if q = "other.txt" then some "keep" else
            if q = output_file then some "old" else none)
          "<html>new</html>" "other.txt" = some "keep" := by
  have h := html_export_frame
    (fun q => if q = "other.txt" then some "keep" else
      if q = output_file then some "old" else none)
    "<html>new</html>"
  refine ⟨by decide, h.2.1, ?_⟩
  rw [h.2.2 "other.txt" (by decide)]
  simp

/-- The literal text of one entity span within the document text. -/
def spanText (text : List Char) (e : EntRecord) : List Char :=
  (text.drop e.start).take (e.stop - e.start)

/-- One highlighted entity: the span's text wrapped in a mark element with
its label alongside. -/
def markSpan (label piece : List Char) : List Char :=
  "<mark>".data ++ piece ++ " <span>".data ++ label ++ "</span></mark>".data

/-- Modelled from the spec: the body the HTML visualiser builds — the
original text with each entity span highlighted and labeled inline, walking
the spans in order. -/
def renderEntsAux (text : List Char) : Nat → List EntRecord → List Char
  | pos, [] => text.drop pos
  | pos, e :: rest =>
    (text.drop pos).take (e.start - pos) ++
      markSpan e.label (spanText text e) ++
      renderEntsAux text e.stop rest

/-- Modelled from the spec: the full HTML page produced at line 360 by
`displacy.render(document, style="ent", jupyter=False, page=True)` — a page
wrapping the text with the entity spans highlighted and labeled inline. -/
def renderEnts (text : List Char) (ents : List EntRecord) : List Char :=
  "<html><body>".data ++ renderEntsAux text 0 ents ++ "</body></html>".data

theorem spanText_infix_renderEntsAux (text : List Char) :
    ∀ (ents : List EntRecord) (pos : Nat) (e : EntRecord), e ∈ ents →
      spanText text e <:+: renderEntsAux text pos ents
  | [], _, _, he => absurd he (List.not_mem_nil _)
  | f :: rest, pos, e, he => by
    rcases List.mem_cons.mp he with rfl | hmem
    · refine ⟨(text.drop pos).take (e.start - pos) ++ "<mark>".data,
        " <span>".data ++ e.label ++ "</span></mark>".data ++
          renderEntsAux text e.stop rest, ?_⟩
      simp [renderEntsAux, markSpan, List.append_assoc]
    · have ih := spanText_infix_renderEntsAux text rest f.stop e hmem
      refine ih.trans ⟨(text.drop pos).take (f.start - pos) ++
        markSpan f.label (spanText text f), [], ?_⟩
      simp [renderEntsAux, List.append_assoc]

/-- Claim C9: for every document text and span sequence, the HTML
visualisation contains each span's literal text substring (at least once). -/
theorem html_contains_span_text (text : List Char) (ents : List EntRecord)
    (e : EntRecord) (he : e ∈ ents) :
    spanText text e <:+: renderEnts text ents := by
  refine (spanText_infix_renderEntsAux text ents 0 e he).trans ?_
  exact ⟨"<html><body>".data, "</body></html>".data, rfl⟩

/-- Witness for claim C9 at a concrete document and a concrete span whose
text is `Hello`. -/
theorem html_contains_span_text_witness :
    ((⟨0, 5, ['P', 'E', 'R', 'S', 'O', 'N']⟩ : EntRecord) ∈
        [(⟨0, 5, ['P', 'E', 'R', 'S', 'O', 'N']⟩ : EntRecord)]) ∧
      spanText ("Hello World".data) ⟨0, 5, ['P', 'E', 'R', 'S', 'O', 'N']⟩ =
        "Hello".data ∧
      spanText ("Hello World".data) ⟨0, 5, ['P', 'E', 'R', 'S', 'O', 'N']⟩ <:+:
        renderEnts ("Hello World".data)
          [⟨0, 5, ['P', 'E', 'R', 'S', 'O', 'N']⟩] :=
  ⟨by decide, by decide,
    html_contains_span_text ("Hello World".data)
      [⟨0, 5, ['P', 'E', 'R', 'S', 'O', 'N']⟩]
      ⟨0, 5, ['P', 'E', 'R', 'S', 'O', 'N']⟩ (by decide)⟩
